import Mathlib

/-!
Shallow embedding of `src/random.js` (the `Random` class, version 2.0.0):
a 32-bit seeded PRNG (MurmurHash3 seeding, Mulberry32 generation), together
with proofs checking the natural-language specification against it.

Modelling conventions:
* JS numbers holding bit patterns are modelled as `ℕ` (the unsigned 32-bit
  view); the mutable `#state` field, whose stored numeric value can leave
  `[0, 2^32)` (the code adds `0x6D2B79F5` to the `ToInt32` view of the state
  without a final wrap), is modelled as `ℤ`.
* Every JS coercion point (`| 0`, `>>> 0`, `Math.imul`) becomes an explicit
  `% 4294967296` / signed-window reduction.
* The float results of `next` are modelled as exact rationals: each draw is
  an integer below `2^32` divided by `2^32`, and every quantity the claims
  mention is exactly representable.
-/

namespace RandomJs

/-- `ToInt32` as performed by JavaScript's `x | 0`: reduce to the signed
32-bit window `[-2^31, 2^31)`. -/
def toInt32 (n : ℤ) : ℤ :=
  let r := n % 4294967296
  if r < 2147483648 then r else r - 4294967296

/-- `ToUint32` as performed by `x >>> 0` (and implicitly by `>>>`,
`Math.imul` operand conversion): the unsigned 32-bit bit pattern. -/
def uint32 (n : ℤ) : ℕ := (n % 4294967296).toNat

/-- One application of the left-rotation idiom `(k << r) | (k >>> (32-r))`
on a 32-bit pattern, exactly as the two shift/or lines of the source. -/
def rotl (x : ℕ) (r s : ℕ) : ℕ := ((x <<< r) % 4294967296) ||| (x >>> s)

/-- `Random.generateSeed` from `src/random.js` lines 34-50, acting on the
sequence of UTF-16 code units of the input string (`charCodeAt` values).
Each `Math.imul` is a multiplication mod `2^32`; the final `>>> 0` is the
closing `% 4294967296`. -/
def generateSeed (cs : List ℕ) : ℕ :=
  let step : ℕ → ℕ → ℕ := fun h c =>
    let k := (c * 3432918353) % 4294967296
    let k := ((k <<< 15) % 4294967296) ||| (k >>> 17)
    let h := h ^^^ ((k * 461845907) % 4294967296)
    let h := ((h <<< 13) % 4294967296) ||| (h >>> 19)
    (h * 5 + 3864292196) % 4294967296
  let h := cs.foldl step 2166136261
  let h := h ^^^ (cs.length % 4294967296)
  let h := h ^^^ (h >>> 16)
  let h := (h * 2246822507) % 4294967296
  let h := h ^^^ (h >>> 13)
  let h := (h * 3266489909) % 4294967296
  ((h ^^^ (h >>> 16)) % 4294967296)

/-- The same hash written from the spec's wording (§4.1): initialize
`h = 2166136261`; per character multiply by `3432918353` and rotate left 15,
mix with `461845907` and rotate left 13, then multiply by 5 and add
`3864292196`, all mod `2^32`; XOR in the length; apply the avalanche
finalizer; return an unsigned 32-bit integer. -/
def generateSeedSpec (cs : List ℕ) : ℕ :=
  let mixChar : ℕ → ℕ → ℕ := fun h c =>
    let k := rotl ((c * 3432918353) % 4294967296) 15 (32 - 15)
    let h := rotl (h ^^^ ((k * 461845907) % 4294967296)) 13 (32 - 13)
    (h * 5 + 3864292196) % 4294967296
  let h := (cs.foldl mixChar 2166136261) ^^^ (cs.length % 4294967296)
  let h := (h ^^^ (h >>> 16)) * 2246822507 % 4294967296
  let h := (h ^^^ (h >>> 13)) * 3266489909 % 4294967296
  (h ^^^ (h >>> 16)) % 4294967296

/-- The Mulberry32 output mixer: the `t` pipeline of `next` (lines 88-91),
acting on the unsigned 32-bit pattern of the freshly advanced state. -/
def mulberryMix (x : ℕ) : ℕ :=
  let t1 := ((x ^^^ (x >>> 15)) * (1 ||| x)) % 4294967296
  let m := ((t1 ^^^ (t1 >>> 7)) * (61 ||| t1)) % 4294967296
  let t2 := t1 ^^^ ((t1 + m) % 4294967296)
  t2 ^^^ (t2 >>> 14)

/-- The state update of `next` (line 86):
`this.#state |= 0; this.#state += 0x6D2B79F5 | 0`.  The result is the
signed 32-bit view of the old state plus `1831565813`, stored without a
further wrap. -/
def advanceStored (s : ℤ) : ℤ := toInt32 s + 1831565813

/-- The abstract state-advance map on unsigned 32-bit values:
`s ↦ (s + 0x6D2B79F5) mod 2^32`.  This is the action of `advanceStored`
on the unsigned view of the state (see `uint32_advanceStored`). -/
def advance32 (s : ℕ) : ℕ := (s + 1831565813) % 4294967296

/-- Rounding policies accepted by the `round` property
(`Math.floor`, `Math.ceil`, `Math.trunc`, `Math.round`). -/
inductive RoundMode
  | floor
  | ceil
  | trunc
  | round
deriving DecidableEq

/-- The JS `Math` rounding function selected by `Math[this.round]`, on
exact rationals, written with `Rat.floor` through the identities
`ceil x = -floor (-x)`, `trunc x = if x ≥ 0 then floor x else ceil x`,
`round x = floor (x + 1/2)`. -/
def applyRound : RoundMode → ℚ → ℤ
  | RoundMode.floor, q => q.floor
  | RoundMode.ceil, q => -((-q).floor)
  | RoundMode.trunc, q => if 0 ≤ q then q.floor else -((-q).floor)
  | RoundMode.round, q => (q + 1/2).floor

/-- An instance of the `Random` class: the private fields
`#seed`, `#state`, `#round`. -/
structure Random where
  seed : ℤ
  state : ℤ
  round : RoundMode
deriving DecidableEq

/-- The `state` setter (lines 69-71): `this.#state = (state ?? this.#state)`;
`none` models a nullish (`null`/`undefined`) assigned value. -/
def setStateRaw (e : Random) (v : Option ℤ) : Random :=
  { e with state := v.getD e.state }

/-- The constructor (lines 56-61) for an explicit numeric seed:
records the seed, assigns `this.state = seed` through the setter,
and sets the default rounding mode `"trunc"`. -/
def mkRandom (seed : ℤ) : Random :=
  setStateRaw { seed := seed, state := seed, round := RoundMode.trunc } (some seed)

/-- `next(min, max)` (lines 84-93).  Returns the updated instance and the
draw `u * (max - min) + min` with `u = mulberryMix(state') / 2^32`. -/
def next (e : Random) (mn mx : ℚ) : Random × ℚ :=
  let s := advanceStored e.state
  let u : ℚ := (mulberryMix (uint32 s) : ℚ) / 4294967296
  ({ e with state := s }, u * (mx - mn) + mn)

/-- `nextInt(min, max, maxIncluded)` (lines 100-102):
`Math[this.round](this.next(min, max + (maxIncluded | 0)))`. -/
def nextInt (e : Random) (mn mx : ℚ) (maxIncluded : Bool) : Random × ℤ :=
  let r := next e mn (mx + (if maxIncluded then 1 else 0))
  (r.1, applyRound e.round r.2)

/-- `nextBoolean(probabilityTrue)` (lines 150-152):
`this.next() < probabilityTrue` with the default draw `next(0, 1)`. -/
def nextBoolean (e : Random) (p : ℚ) : Random × Bool :=
  let r := next e 0 1
  (r.1, decide (r.2 < p))

/-- `nextSign(probabilityPositive)` (lines 157-159). -/
def nextSign (e : Random) (p : ℚ) : Random × ℤ :=
  let r := nextBoolean e p
  (r.1, if r.2 then 1 else -1)

/-- One zero-rejection loop of `nextNormal` (`let u = 0; while (u === 0)
u = this.next();`), with explicit fuel: starting from stored state `s`,
repeatedly advance and draw until the draw is nonzero, returning the stored
state at loop exit. -/
def findNZ : ℕ → ℤ → Option ℤ
  | 0, _ => none
  | fuel + 1, s =>
    let s' := advanceStored s
    let u : ℚ := (mulberryMix (uint32 s') : ℚ) / 4294967296
    if u = 0 then findNZ fuel s' else some s'

/-- The engine effect of `nextNormal` (lines 110-135): two zero-rejection
loops, each consuming draws until a nonzero uniform appears.  Returns the
updated instance and the two accepted uniforms `(u, v)`; the normal variate
returned by the source is a fixed real-valued function of `(u, v)` and the
numeric arguments.  Each loop is run with fuel `2^32`, which always
suffices (`findNZ_total`); the fallback branch is never taken. -/
def nextNormalEffect (e : Random) : Random × ℚ × ℚ :=
  let s1 := (findNZ 4294967296 e.state).getD (advanceStored e.state)
  let u : ℚ := (mulberryMix (uint32 s1) : ℚ) / 4294967296
  let s2 := (findNZ 4294967296 s1).getD (advanceStored s1)
  let v : ℚ := (mulberryMix (uint32 s2) : ℚ) / 4294967296
  ({ e with state := s2 }, u, v)

/-- A call made to a `Random` instance: the public mutating operations. -/
inductive Op
  | next (mn mx : ℚ)
  | nextIntOp (mn mx : ℚ) (inc : Bool)
  | nextBooleanOp (p : ℚ)
  | nextSignOp (p : ℚ)
  | nextNormalOp
  | nextNormalIntOp
  | setStateOp (v : Option ℤ)

/-- `true` on the draw operations, `false` on direct state assignment. -/
def isDrawCall : Op → Bool
  | Op.setStateOp _ => false
  | _ => true

/-- Perform one call, returning the updated instance and the numeric
outputs the call produces (booleans as 0/1, signs as ±1, a normal draw as
its two accepted uniforms, a state assignment as no output). -/
def opStep (op : Op) (e : Random) : Random × List ℚ :=
  match op with
  | Op.next mn mx => let r := next e mn mx; (r.1, [r.2])
  | Op.nextIntOp mn mx inc => let r := nextInt e mn mx inc; (r.1, [(r.2 : ℚ)])
  | Op.nextBooleanOp p => let r := nextBoolean e p; (r.1, [if r.2 then 1 else 0])
  | Op.nextSignOp p => let r := nextSign e p; (r.1, [(r.2 : ℚ)])
  | Op.nextNormalOp => let r := nextNormalEffect e; (r.1, [r.2.1, r.2.2])
  | Op.nextNormalIntOp => let r := nextNormalEffect e; (r.1, [r.2.1, r.2.2])
  | Op.setStateOp v => (setStateRaw e v, [])

/-- Run a sequence of calls, collecting all outputs. -/
def runOps : List Op → Random → Random × List ℚ
  | [], e => (e, [])
  | op :: ops, e =>
    let r := opStep op e
    let rest := runOps ops r.1
    (rest.1, r.2 ++ rest.2)

/-- The `next` pipeline as the specification states it (§4.3 / claim C1):
advance mod `2^32`, three mixing steps with explicit `mod 2^32`, divide by
`2^32`, scale into `[min, max)`. -/
def specNext (state : ℕ) (mn mx : ℚ) : ℕ × ℚ :=
  let s := (state + 0x6D2B79F5) % 4294967296
  let t1 := ((s ^^^ (s >>> 15)) * (s ||| 1)) % 4294967296
  let t2 := (t1 ^^^ ((t1 + ((t1 ^^^ (t1 >>> 7)) * (t1 ||| 61)) % 4294967296) % 4294967296)) % 4294967296
  let u : ℚ := (((t2 ^^^ (t2 >>> 14)) % 4294967296 : ℕ) : ℚ) / 4294967296
  (s, u * (mx - mn) + mn)

/-! ### Arithmetic helper lemmas -/

lemma toInt32_bounds (s : ℤ) : -2147483648 ≤ toInt32 s ∧ toInt32 s < 2147483648 := by
  simp only [toInt32]
  split <;> omega

lemma advanceStored_bounds (s : ℤ) :
    -2147483648 ≤ advanceStored s ∧ advanceStored s < 4294967296 := by
  have h := toInt32_bounds s
  simp only [advanceStored]
  omega

lemma uint32_advanceStored (s : ℤ) : uint32 (advanceStored s) = advance32 (uint32 s) := by
  simp only [uint32, advanceStored, toInt32, advance32]
  split <;> omega

lemma uint32_lt (s : ℤ) : uint32 s < 4294967296 := by
  simp only [uint32]
  omega

lemma advance32_lt (s : ℕ) : advance32 s < 4294967296 := by
  simp only [advance32]
  omega

lemma two_pow_32 : (4294967296 : ℕ) = 2 ^ 32 := by norm_num

lemma xor_lt_u32 {a b : ℕ} (ha : a < 4294967296) (hb : b < 4294967296) :
    a ^^^ b < 4294967296 := by
  rw [two_pow_32] at *
  exact Nat.xor_lt_two_pow ha hb

lemma shiftRight_lt_u32 {a : ℕ} (k : ℕ) (ha : a < 4294967296) : a >>> k < 4294967296 :=
  calc a >>> k = a / 2 ^ k := Nat.shiftRight_eq_div_pow a k
  _ ≤ a := Nat.div_le_self a (2 ^ k)
  _ < 4294967296 := ha

lemma mulberryMix_lt (x : ℕ) : mulberryMix x < 4294967296 := by
  simp only [mulberryMix]
  exact xor_lt_u32
    (xor_lt_u32 (Nat.mod_lt _ (by norm_num)) (Nat.mod_lt _ (by norm_num)))
    (shiftRight_lt_u32 14
      (xor_lt_u32 (Nat.mod_lt _ (by norm_num)) (Nat.mod_lt _ (by norm_num))))

lemma draw_nonneg (x : ℕ) : (0 : ℚ) ≤ (mulberryMix x : ℚ) / 4294967296 := by
  positivity

lemma draw_lt_one (x : ℕ) : (mulberryMix x : ℚ) / 4294967296 < 1 := by
  rw [div_lt_one (by norm_num)]
  exact_mod_cast mulberryMix_lt x

lemma ratFloor_eq_floor (q : ℚ) : q.floor = ⌊q⌋ := by
  rw [Rat.floor_def', ← Rat.floor_def]

/-! ### The additive counter: iteration, period, injectivity, reachability -/

lemma advance32_iterate (k : ℕ) : ∀ s : ℕ, s < 4294967296 →
    advance32^[k] s = (s + k * 1831565813) % 4294967296 := by
  induction k with
  | zero => intro s hs; simpa using (Nat.mod_eq_of_lt hs).symm
  | succ k ih =>
    intro s hs
    rw [Function.iterate_succ_apply, ih (advance32 s) (advance32_lt s)]
    show ((s + 1831565813) % 4294967296 + k * 1831565813) % 4294967296
        = (s + (k + 1) * 1831565813) % 4294967296
    have hk : (k + 1) * 1831565813 = k * 1831565813 + 1831565813 := by ring
    rw [hk]
    generalize k * 1831565813 = m
    omega

lemma advance32_period (s : ℕ) (hs : s < 4294967296) : advance32^[4294967296] s = s := by
  have h := advance32_iterate 4294967296 s hs
  rw [h, Nat.mul_comm, Nat.add_mul_mod_self_right]
  exact Nat.mod_eq_of_lt hs

lemma advance32_inj (s k₁ k₂ : ℕ) (hs : s < 4294967296)
    (hk₁ : k₁ < 4294967296) (hk₂ : k₂ < 4294967296)
    (h : advance32^[k₁] s = advance32^[k₂] s) : k₁ = k₂ := by
  rw [advance32_iterate _ s hs, advance32_iterate _ s hs] at h
  have hmod : k₁ * 1831565813 ≡ k₂ * 1831565813 [MOD 4294967296] :=
    Nat.ModEq.add_left_cancel' s h
  have hg : Nat.gcd 4294967296 1831565813 = 1 := by norm_num
  have h2 : k₁ ≡ k₂ [MOD 4294967296] :=
    Nat.ModEq.cancel_right_of_coprime hg hmod
  have h3 : k₁ % 4294967296 = k₂ % 4294967296 := h2
  clear h hmod h2
  omega

lemma advance32_reaches (s t : ℕ) (hs : s < 4294967296) (ht : t < 4294967296) :
    ∃ k, k < 4294967296 ∧ advance32^[k] s = t := by
  refine ⟨((t + 4294967296 - s) * 3696798301) % 4294967296,
    Nat.mod_lt _ (by norm_num), ?_⟩
  rw [advance32_iterate _ s hs]
  have h1 : ((t + 4294967296 - s) * 3696798301) % 4294967296 * 1831565813 % 4294967296
      = (t + 4294967296 - s) % 4294967296 := by
    rw [Nat.mod_mul_mod, Nat.mul_assoc, Nat.mul_mod,
      show (3696798301 * 1831565813) % 4294967296 = 1 by norm_num, Nat.mul_one]
    generalize t + 4294967296 - s = y
    omega
  rw [Nat.add_mod, h1]
  omega

/-! ### The zero-rejection loop -/

lemma findNZ_some_bounds : ∀ (f : ℕ) (s s' : ℤ), findNZ f s = some s' →
    (-2147483648 ≤ s' ∧ s' < 4294967296) ∧ mulberryMix (uint32 s') ≠ 0 := by
  intro f
  induction f with
  | zero => intro s s' h; simp [findNZ] at h
  | succ f ih =>
    intro s s' h
    simp only [findNZ] at h
    split at h
    · exact ih _ _ h
    · rename_i hcond
      obtain rfl : advanceStored s = s' := by simpa using h
      refine ⟨advanceStored_bounds s, fun hmix => hcond ?_⟩
      rw [hmix]
      norm_num

lemma findNZ_succeeds : ∀ (f : ℕ) (s : ℤ),
    (∃ k, k < f ∧ mulberryMix (advance32^[k] (uint32 (advanceStored s))) ≠ 0) →
    ∃ s', findNZ f s = some s' := by
  intro f
  induction f with
  | zero => rintro s ⟨k, hk, -⟩; omega
  | succ f ih =>
    rintro s ⟨k, hk, hmix⟩
    by_cases hc : (mulberryMix (uint32 (advanceStored s)) : ℚ) / 4294967296 = 0
    · have hzero : mulberryMix (uint32 (advanceStored s)) = 0 := by
        field_simp at hc
        exact_mod_cast hc
      obtain ⟨j, rfl⟩ : ∃ j, k = j + 1 := by
        rcases k with _ | j
        · rw [Function.iterate_zero_apply] at hmix
          exact absurd hzero hmix
        · exact ⟨j, rfl⟩
      obtain ⟨s', hs'⟩ := ih (advanceStored s) ⟨j, by omega, by
        rw [uint32_advanceStored, ← Function.iterate_succ_apply]
        exact hmix⟩
      exact ⟨s', by simpa [findNZ, hc] using hs'⟩
    · exact ⟨advanceStored s, by simp [findNZ, hc]⟩

lemma findNZ_total (s : ℤ) : ∃ s', findNZ 4294967296 s = some s' := by
  apply findNZ_succeeds
  obtain ⟨k, hk, hadv⟩ := advance32_reaches (uint32 (advanceStored s)) 1
    (uint32_lt _) (by norm_num)
  refine ⟨k, hk, ?_⟩
  rw [hadv]
  decide

/-! ### Effects of single calls and call sequences -/

lemma opStep_seed (op : Op) (e : Random) : (opStep op e).1.seed = e.seed := by
  cases op <;> rfl

lemma opStep_round (op : Op) (e : Random) : (opStep op e).1.round = e.round := by
  cases op <;> rfl

lemma opStep_congr (op : Op) (e₁ e₂ : Random)
    (hs : e₁.state = e₂.state) (hr : e₁.round = e₂.round) :
    (opStep op e₁).1.state = (opStep op e₂).1.state ∧ (opStep op e₁).2 = (opStep op e₂).2 := by
  cases op <;>
    simp [opStep, next, nextInt, nextBoolean, nextSign, nextNormalEffect, setStateRaw, hs, hr]

lemma runOps_seed (ops : List Op) : ∀ e : Random, (runOps ops e).1.seed = e.seed := by
  induction ops with
  | nil => intro e; rfl
  | cons op ops ih =>
    intro e
    show (runOps ops (opStep op e).1).1.seed = e.seed
    rw [ih, opStep_seed]

lemma runOps_congr (ops : List Op) : ∀ e₁ e₂ : Random,
    e₁.state = e₂.state → e₁.round = e₂.round →
    (runOps ops e₁).2 = (runOps ops e₂).2 ∧
      (runOps ops e₁).1.state = (runOps ops e₂).1.state := by
  induction ops with
  | nil => intro e₁ e₂ hs _; exact ⟨rfl, hs⟩
  | cons op ops ih =>
    intro e₁ e₂ hs hr
    have hstep := opStep_congr op e₁ e₂ hs hr
    have hround : (opStep op e₁).1.round = (opStep op e₂).1.round := by
      rw [opStep_round, opStep_round, hr]
    have htail := ih (opStep op e₁).1 (opStep op e₂).1 hstep.1 hround
    constructor
    · show (opStep op e₁).2 ++ (runOps ops (opStep op e₁).1).2
          = (opStep op e₂).2 ++ (runOps ops (opStep op e₂).1).2
      rw [hstep.2, htail.1]
    · exact htail.2

lemma normalState_bounds (s : ℤ) :
    -2147483648 ≤ (findNZ 4294967296 s).getD (advanceStored s) ∧
      (findNZ 4294967296 s).getD (advanceStored s) < 4294967296 := by
  rcases h : findNZ 4294967296 s with _ | s'
  · simpa [h] using advanceStored_bounds s
  · simpa [h] using (findNZ_some_bounds _ _ _ h).1

lemma opStep_state_bounds (op : Op) (e : Random) (hdraw : isDrawCall op = true) :
    -2147483648 ≤ (opStep op e).1.state ∧ (opStep op e).1.state < 4294967296 := by
  cases op with
  | next mn mx => exact advanceStored_bounds e.state
  | nextIntOp mn mx inc => exact advanceStored_bounds e.state
  | nextBooleanOp p => exact advanceStored_bounds e.state
  | nextSignOp p => exact advanceStored_bounds e.state
  | nextNormalOp =>
    exact normalState_bounds ((findNZ 4294967296 e.state).getD (advanceStored e.state))
  | nextNormalIntOp =>
    exact normalState_bounds ((findNZ 4294967296 e.state).getD (advanceStored e.state))
  | setStateOp v => simp [isDrawCall] at hdraw

lemma runOps_state_bounds (ops : List Op) : ∀ e : Random,
    ops.all isDrawCall = true →
    -2147483648 ≤ e.state → e.state < 4294967296 →
    -2147483648 ≤ (runOps ops e).1.state ∧ (runOps ops e).1.state < 4294967296 := by
  induction ops with
  | nil => intro e _ h₁ h₂; exact ⟨h₁, h₂⟩
  | cons op ops ih =>
    intro e hall h₁ h₂
    rw [List.all_cons, Bool.and_eq_true] at hall
    have hstep := opStep_state_bounds op e hall.1
    exact ih (opStep op e).1 hall.2 hstep.1 hstep.2

/-! ### Claim theorems -/

/-- C2: `generateSeed` is a deterministic, total function over every finite
string (lists of character codes, including the empty one) returning a
32-bit unsigned integer, computed by the stated MurmurHash3-style algorithm
(init 2166136261; per character the 3432918353/rotl15, 461845907/rotl13,
times-5-plus-3864292196 mixing mod 2^32; XOR the length; avalanche
finalizer); equal inputs give equal outputs. -/
theorem generateSeed_uint32_and_algorithm :
    (∀ cs : List ℕ, generateSeed cs < 4294967296) ∧
    (∀ cs : List ℕ, generateSeed cs = generateSeedSpec cs) ∧
    (∀ cs ds : List ℕ, cs = ds → generateSeed cs = generateSeed ds) := by
  refine ⟨fun cs => ?_, fun cs => ?_, fun cs ds h => by rw [h]⟩
  · simp only [generateSeed]
    exact Nat.mod_lt _ (by norm_num)
  · simp [generateSeed, generateSeedSpec, rotl]

/-- Witness for C2 at the code-unit list of the string `"seed"`. -/
theorem generateSeed_uint32_and_algorithm_witness :
    generateSeed [115, 101, 101, 100] < 4294967296 ∧
    generateSeed [115, 101, 101, 100] = generateSeedSpec [115, 101, 101, 100] ∧
    generateSeed [115, 101, 101, 100] = generateSeed [115, 101, 101, 100] :=
  ⟨generateSeed_uint32_and_algorithm.1 _, generateSeed_uint32_and_algorithm.2.1 _,
    generateSeed_uint32_and_algorithm.2.2 _ _ rfl⟩

/-- C3: the engine's transition and output are a pure function of the
previous state and the call made.  First: after `setState x`, a `next` call
returns the same value and leaves the same state on any two instances,
whatever their seeds, rounding modes, or histories.  Second: two instances
agreeing on state and rounding mode (in particular two instances freshly
constructed from the same seed) produce identical output sequences under
any same sequence of calls; a `nextNormal`'s returned variate is a fixed
real function of the two recorded uniforms, so equal outputs here give
bit-identical streams. -/
theorem state_transition_pure :
    (∀ (e₁ e₂ : Random) (x : ℤ) (mn mx : ℚ),
      (next (setStateRaw e₁ (some x)) mn mx).2 = (next (setStateRaw e₂ (some x)) mn mx).2 ∧
      (next (setStateRaw e₁ (some x)) mn mx).1.state
        = (next (setStateRaw e₂ (some x)) mn mx).1.state) ∧
    (∀ (e₁ e₂ : Random) (ops : List Op), e₁.state = e₂.state → e₁.round = e₂.round →
      (runOps ops e₁).2 = (runOps ops e₂).2) := by
  constructor
  · intro e₁ e₂ x mn mx
    exact ⟨rfl, rfl⟩
  · intro e₁ e₂ ops hs hr
    exact (runOps_congr ops e₁ e₂ hs hr).1

/-- Witness for C3: two instances with different seeds but equal state and
rounding mode produce the same outputs on a concrete call sequence. -/
theorem state_transition_pure_witness :
    (runOps [Op.next 0 1, Op.nextBooleanOp (1/2)] ⟨1, 7, RoundMode.trunc⟩).2
      = (runOps [Op.next 0 1, Op.nextBooleanOp (1/2)] ⟨2, 7, RoundMode.trunc⟩).2 :=
  state_transition_pure.2 ⟨1, 7, RoundMode.trunc⟩ ⟨2, 7, RoundMode.trunc⟩
    [Op.next 0 1, Op.nextBooleanOp (1/2)] rfl rfl

/-- C4: the state-advance map `s ↦ (s + 0x6D2B79F5) mod 2^32` is a
permutation of the 32-bit values forming a single cycle of length `2^32`:
from any start, `2^32` applications return to the start, and every 32-bit
value is visited at exactly one step index below `2^32`. -/
theorem advance_full_cycle (s : ℕ) (hs : s < 4294967296) :
    advance32^[4294967296] s = s ∧
    ∀ t : ℕ, t < 4294967296 → ∃! k : ℕ, k < 4294967296 ∧ advance32^[k] s = t := by
  refine ⟨advance32_period s hs, fun t ht => ?_⟩
  obtain ⟨k, hk, hak⟩ := advance32_reaches s t hs ht
  refine ⟨k, ⟨hk, hak⟩, ?_⟩
  rintro y ⟨hy, hay⟩
  exact advance32_inj s y k hs hy hk (by rw [hay, hak])

/-- Witness for C4 at start state 0 and target value 1. -/
theorem advance_full_cycle_witness :
    advance32^[4294967296] 0 = 0 ∧
      ∃! k : ℕ, k < 4294967296 ∧ advance32^[k] 0 = 1 :=
  ⟨(advance_full_cycle 0 (by norm_num)).1,
    (advance_full_cycle 0 (by norm_num)).2 1 (by norm_num)⟩

/-- C7: for every engine state, `nextBoolean 0` returns `false` and
`nextBoolean 1` returns `true` (the uniform draw lies in `[0,1)`), and a
`nextBoolean` call consumes exactly one engine draw: its only effect is the
single state advance of `next`. -/
theorem nextBoolean_boundaries (e : Random) (p : ℚ) :
    (nextBoolean e 0).2 = false ∧ (nextBoolean e 1).2 = true ∧
    (nextBoolean e p).1 = { e with state := advanceStored e.state } := by
  refine ⟨?_, ?_, rfl⟩
  · simp only [nextBoolean, next]
    rw [decide_eq_false_iff_not, not_lt]
    have h := draw_nonneg (uint32 (advanceStored e.state))
    nlinarith
  · simp only [nextBoolean, next]
    rw [decide_eq_true_iff]
    have h := draw_lt_one (uint32 (advanceStored e.state))
    nlinarith

/-- C8: the seed recorded at construction is immutable: no sequence of
operations (`next`, `nextInt`, `nextBoolean`, `nextSign`, `nextNormal`,
`nextNormalInt`, direct state assignment) changes the value returned by the
seed accessor. -/
theorem seed_immutable (e : Random) (ops : List Op) :
    (runOps ops e).1.seed = e.seed :=
  runOps_seed ops e

/-- C9: assigning a nullish value (`null`/`undefined`, modelled `none`) to
the state setter is a no-op (the instance is unchanged), while assigning a
non-nullish value replaces the state with it. -/
theorem setState_nullish_noop (e : Random) (v : ℤ) :
    setStateRaw e none = e ∧ (setStateRaw e none).state = e.state ∧
      (setStateRaw e (some v)).state = v :=
  ⟨rfl, rfl, rfl⟩

/-- C10: the zero-rejection loops of `nextNormal` always terminate: from
any stored state, within `2^32` draws the loop finds a draw whose mixed
output is nonzero (because the advance map visits every 32-bit state and
`mulberryMix 1 ≠ 0`).  Both loops of `nextNormal` are instances of
`findNZ` from an arbitrary stored state, so `nextNormal` returns after
finitely many engine draws. -/
theorem nextNormal_loops_terminate (s : ℤ) :
    ∃ s', findNZ 4294967296 s = some s' ∧ mulberryMix (uint32 s') ≠ 0 := by
  obtain ⟨s', h⟩ := findNZ_total s
  exact ⟨s', h, (findNZ_some_bounds _ _ _ h).2⟩

/-! ### Relating the code's `next` to the specification's pipeline -/

lemma uint32_natCast (n : ℕ) (h : n < 4294967296) : uint32 (n : ℤ) = n := by
  simp only [uint32]
  omega

lemma advanceStored_emod (s : ℤ) :
    advanceStored s % 4294967296 = ((advance32 (uint32 s)) : ℤ) := by
  simp only [advanceStored, toInt32, uint32, advance32]
  split <;> push_cast <;> omega

lemma specNext_eq (st : ℕ) (mn mx : ℚ) :
    (specNext st mn mx).1 = advance32 st ∧
    (specNext st mn mx).2 = (mulberryMix (advance32 st) : ℚ) / 4294967296 * (mx - mn) + mn := by
  refine ⟨rfl, ?_⟩
  simp only [specNext, mulberryMix, advance32]
  rw [Nat.lor_comm _ (1 : ℕ), Nat.lor_comm _ (61 : ℕ)]
  have ht1 : ((st + 1831565813) % 4294967296 ^^^ ((st + 1831565813) % 4294967296) >>> 15) *
      (1 ||| (st + 1831565813) % 4294967296) % 4294967296 < 4294967296 :=
    Nat.mod_lt _ (by norm_num)
  set t1 := ((st + 1831565813) % 4294967296 ^^^ ((st + 1831565813) % 4294967296) >>> 15) *
      (1 ||| (st + 1831565813) % 4294967296) % 4294967296 with hdef
  have h2 : t1 ^^^ ((t1 + ((t1 ^^^ t1 >>> 7) * (61 ||| t1)) % 4294967296) % 4294967296)
      < 4294967296 :=
    xor_lt_u32 ht1 (Nat.mod_lt _ (by norm_num))
  rw [Nat.mod_eq_of_lt h2, Nat.mod_eq_of_lt (xor_lt_u32 h2 (shiftRight_lt_u32 14 h2))]

/-- C1 (amended): for every 32-bit state value and all `min`, `max`, a call
to `next(min, max)` replaces the stored state by `ToInt32(state) +
0x6D2B79F5` — a value congruent mod `2^32` to the claimed
`(state + 0x6D2B79F5) mod 2^32`, but not always equal to it — and returns
exactly the claimed value: with `t` computed from the new state's unsigned
32-bit view by `t = (s ^ (s >> 15)) * (s | 1) mod 2^32`, then
`t = t ^ (t + ((t ^ (t >> 7)) * (t | 61)) mod 2^32) mod 2^32`, the result
is `u * (max - min) + min` where `u = ((t ^ (t >> 14)) mod 2^32) / 2^32`
lies in `[0, 1)`. -/
theorem next_matches_spec_up_to_mod (sd : ℤ) (r : RoundMode) (st : ℕ) (mn mx : ℚ)
    (hst : st < 4294967296) :
    (next ⟨sd, (st : ℤ), r⟩ mn mx).1.state % 4294967296 = ((specNext st mn mx).1 : ℤ) ∧
    (next ⟨sd, (st : ℤ), r⟩ mn mx).2 = (specNext st mn mx).2 ∧
    ∃ u : ℚ, 0 ≤ u ∧ u < 1 ∧ (next ⟨sd, (st : ℤ), r⟩ mn mx).2 = u * (mx - mn) + mn := by
  refine ⟨?_, ?_, ?_⟩
  · show advanceStored (st : ℤ) % 4294967296 = _
    rw [advanceStored_emod, (specNext_eq st mn mx).1, uint32_natCast st hst]
  · show (mulberryMix (uint32 (advanceStored (st : ℤ))) : ℚ) / 4294967296 * (mx - mn) + mn = _
    rw [(specNext_eq st mn mx).2, uint32_advanceStored, uint32_natCast st hst]
  · exact ⟨(mulberryMix (uint32 (advanceStored (st : ℤ))) : ℚ) / 4294967296,
      draw_nonneg _, draw_lt_one _, rfl⟩

/-- Witness for C1 at state 0, `min = 0`, `max = 1`. -/
theorem next_matches_spec_up_to_mod_witness :
    (next ⟨0, ((0 : ℕ) : ℤ), RoundMode.trunc⟩ 0 1).1.state % 4294967296
        = ((specNext 0 0 1).1 : ℤ) ∧
    (next ⟨0, ((0 : ℕ) : ℤ), RoundMode.trunc⟩ 0 1).2 = (specNext 0 0 1).2 ∧
    ∃ u : ℚ, 0 ≤ u ∧ u < 1 ∧
      (next ⟨0, ((0 : ℕ) : ℤ), RoundMode.trunc⟩ 0 1).2 = u * (1 - 0) + 0 :=
  next_matches_spec_up_to_mod 0 RoundMode.trunc 0 0 1 (by norm_num)

/-- Counterexample to C1 as stated: at state `2^31` the stored state after
`next` is `-315917835`, not the claimed `(2^31 + 0x6D2B79F5) mod 2^32 =
3979049461`; the two are congruent mod `2^32` but unequal. -/
theorem next_state_not_the_mod_value :
    (next ⟨0, ((2147483648 : ℕ) : ℤ), RoundMode.trunc⟩ 0 1).1.state = -315917835 ∧
    ((specNext 2147483648 0 1).1 : ℤ) = 3979049461 ∧
    (next ⟨0, ((2147483648 : ℕ) : ℤ), RoundMode.trunc⟩ 0 1).1.state
      ≠ ((specNext 2147483648 0 1).1 : ℤ) :=
  ⟨by decide, by decide, by decide⟩

/-- C5 (amended): for every engine constructed from a 32-bit unsigned seed
and every sequence of draw calls, the state accessor yields an integer in
`[-2^31, 2^32)` congruent mod `2^32` to the abstract 32-bit state — but not
always in `[0, 2^32)`: a draw stores `ToInt32(state) + 0x6D2B79F5`, which
can be negative. -/
theorem state_stays_in_signed_window (seed : ℤ) (ops : List Op)
    (h₀ : 0 ≤ seed) (h₁ : seed < 4294967296) (hdraw : ops.all isDrawCall = true) :
    -2147483648 ≤ (runOps ops (mkRandom seed)).1.state ∧
      (runOps ops (mkRandom seed)).1.state < 4294967296 := by
  have hst : (mkRandom seed).state = seed := rfl
  exact runOps_state_bounds ops (mkRandom seed) hdraw (by rw [hst]; omega) (by rw [hst]; omega)

/-- Witness for C5 with seed 0 and one `next` draw. -/
theorem state_stays_in_signed_window_witness :
    -2147483648 ≤ (runOps [Op.next 0 1] (mkRandom 0)).1.state ∧
      (runOps [Op.next 0 1] (mkRandom 0)).1.state < 4294967296 :=
  state_stays_in_signed_window 0 [Op.next 0 1] (by norm_num) (by norm_num) (by decide)

/-- Counterexample to C5 as stated: the engine constructed from the valid
32-bit seed `2^31` has, after a single `next()` draw, the state accessor
value `-315917835`, which is not in `[0, 2^32)`. -/
theorem state_accessor_leaves_uint32_range :
    (runOps [Op.next 0 1] (mkRandom 2147483648)).1.state = -315917835 ∧
    ¬(0 ≤ (runOps [Op.next 0 1] (mkRandom 2147483648)).1.state) :=
  ⟨by decide, by decide⟩

/-- C6: with the default truncate-toward-zero rounding policy,
`nextInt(0, 10)` never returns 10 (for any seed and state), and there is a
state from which `nextInt(0, 10, true)` returns 10. -/
theorem nextInt_endpoint (sd : ℤ) :
    (∀ st : ℤ, (nextInt ⟨sd, st, RoundMode.trunc⟩ 0 10 false).2 ≠ 10) ∧
    (∃ st : ℤ, (nextInt ⟨sd, st, RoundMode.trunc⟩ 0 10 true).2 = 10) := by
  constructor
  · intro st
    show applyRound RoundMode.trunc _ ≠ 10
    have hu0 := draw_nonneg (uint32 (advanceStored st))
    have hu1 := draw_lt_one (uint32 (advanceStored st))
    set u : ℚ := (mulberryMix (uint32 (advanceStored st)) : ℚ) / 4294967296 with hu
    show applyRound RoundMode.trunc (u * (10 + 0 - 0) + 0) ≠ 10
    have hv : u * (10 + 0 - 0) + 0 = u * 10 := by ring
    rw [hv]
    simp only [applyRound]
    rw [if_pos (by positivity), ratFloor_eq_floor]
    have hlt : ⌊u * 10⌋ < 10 := by
      rw [Int.floor_lt]
      push_cast
      nlinarith
    omega
  · refine ⟨4, ?_⟩
    show applyRound RoundMode.trunc _ = 10
    have hmix : mulberryMix (uint32 (advanceStored 4)) = 3966987260 := by decide
    show applyRound RoundMode.trunc
      ((mulberryMix (uint32 (advanceStored 4)) : ℚ) / 4294967296 * (10 + 1 - 0) + 0) = 10
    rw [hmix]
    simp only [applyRound]
    rw [if_pos (by positivity), ratFloor_eq_floor, Int.floor_eq_iff]
    constructor <;> push_cast <;> norm_num

end RandomJs
